import Mathlib

/-!
Shallow embedding of `src/so_api.py` (Xsolai/so-api): the page-selection
parser `parse_page_selection` and the request handler `read_file`, with
theorems settling the frozen claims about them.

Python strings are modelled as Lean `String` (a list of characters).
Python's `str` methods are modelled on the ASCII fragment, plus the
superscript digit code points U+00B9/U+00B2/U+00B3 that make
`str.isdigit` and `int()` disagree in CPython (`"²".isdigit()` is `True`
while `int("²")` raises `ValueError`).  Decimal digits of non-Latin
scripts are outside the modelled character set.  Python exceptions are
modelled with `Except`.
-/

namespace SoApi

/-- Characters removed by Python's `str.strip()` (ASCII whitespace). -/
def isPySpace (c : Char) : Bool :=
  c = ' ' || c = '\t' || c = '\n' || c = '\r' || c = '\x0b' || c = '\x0c'

/-- Python `s.strip()`: remove leading and trailing whitespace. -/
def pyStrip (s : String) : String :=
  ⟨((s.data.dropWhile isPySpace).reverse.dropWhile isPySpace).reverse⟩

/-- Characters on which Python's `str.isdigit` returns `True`: ASCII
decimal digits, and the superscript digits U+00B9, U+00B2, U+00B3
(which have the Unicode digit property but are not decimal digits, so
`int()` rejects them). -/
def pyIsDigitChar (c : Char) : Bool :=
  c.isDigit || c = '¹' || c = '²' || c = '³'

/-- Python `s.isdigit()`: non-empty and all characters are digits. -/
def pyIsDigit (s : String) : Bool :=
  !s.data.isEmpty && s.data.all pyIsDigitChar

/-- Python `s.split(sep)` for a one-character separator: every occurrence
splits, empty pieces are kept, and the empty string yields `[""]`. -/
def splitC (sep : Char) : List Char → List (List Char)
  | [] => [[]]
  | x :: xs =>
    match splitC sep xs with
    | [] => [[]]
    | g :: gs => if x = sep then [] :: g :: gs else (x :: g) :: gs

/-- Numeric value of an ASCII digit character. -/
def digitVal (c : Char) : Nat := c.toNat - '0'.toNat

/-- Value of a list of ASCII digit characters read in base 10. -/
def digitsVal (cs : List Char) : Nat :=
  cs.foldl (fun a c => a * 10 + digitVal c) 0

/-- No two adjacent underscores (part of Python's integer-literal
grammar: underscores may only separate digits). -/
def noDoubleUS : List Char → Bool
  | [] => true
  | [_] => true
  | a :: b :: rest => !(a == '_' && b == '_') && noDoubleUS (b :: rest)

/-- The digit part of Python's `int()` grammar: a non-empty run of ASCII
decimal digits, single underscores allowed strictly between digits. -/
def pyDigitsU (cs : List Char) : Option Nat :=
  if cs.isEmpty then none
  else if cs.head? = some '_' || cs.getLast? = some '_' then none
  else if !(noDoubleUS cs) then none
  else if cs.all (fun c => c.isDigit || c == '_') then
    some (digitsVal (cs.filter (fun c => c != '_')))
  else none

/-- Python `int(s)` on a string: strip surrounding whitespace, optional
sign, then decimal digits (with underscore separators); `none` models
`ValueError`.  (Non-ASCII decimal digits, accepted by CPython, are
outside the modelled character set.) -/
def pyInt? (s : String) : Option Int :=
  if (pyStrip s).data.head? = some '+' then
    (pyDigitsU (pyStrip s).data.tail).map Int.ofNat
  else if (pyStrip s).data.head? = some '-' then
    (pyDigitsU (pyStrip s).data.tail).map (fun n => -(n : Int))
  else (pyDigitsU (pyStrip s).data).map Int.ofNat

/-- Python `s.upper()` restricted to ASCII letters. -/
def pyUpper (s : String) : String := ⟨s.data.map Char.toUpper⟩

/-- Python `s.lower()` restricted to ASCII letters. -/
def pyLower (s : String) : String := ⟨s.data.map Char.toLower⟩

/-- `list(range(a, b + 1))`: the integers from `a` to `b` inclusive. -/
def rangeList (a b : Int) : List Int :=
  (List.range (b + 1 - a).toNat).map (fun k => a + Int.ofNat k)

/-- Insert an integer into a strictly ascending list, keeping it
strictly ascending (dropping a duplicate). -/
def insertSD (n : Int) : List Int → List Int
  | [] => [n]
  | m :: t => if n = m then m :: t else if n < m then n :: m :: t else m :: insertSD n t

/-- Python `sorted(set(l))`: the strictly ascending list of the distinct
elements of `l`. -/
def sortedDedup (l : List Int) : List Int := l.foldr insertSD []

/-- An atom of a `pages` list: Python `int`, Python `str`, or any other
value (dropped by the parser's `isinstance` checks). -/
inductive Atom
  | int (i : Int)
  | str (s : String)
  | other
deriving DecidableEq

/-- The `pages` field of a request: a string, a list of atoms, or a
value of any other type. -/
inductive PagesParam
  | str (s : String)
  | list (atoms : List Atom)
  | other
deriving DecidableEq

/-- Result of `parse_page_selection`: the sentinel `"ALL"` or a list of
page numbers. -/
inductive PageSel
  | all
  | pages (l : List Int)
deriving DecidableEq

/-- Python exceptions reachable in the embedded code. -/
inductive PyExc
  | httpE (code : Nat) (detail : String)
  | valueE (msg : String)
  | binasciiE (msg : String)
deriving DecidableEq

deriving instance DecidableEq for Except

/-- `str(e)` for the embedded exceptions; for `HTTPException` this is
starlette's `__str__`, `f"{status_code}: {detail}"`. -/
def strExc : PyExc → String
  | .httpE c d => toString c ++ ": " ++ d
  | .valueE m => m
  | .binasciiE m => m

/-- One iteration of `parse_page_selection`'s string loop on an already
stripped segment: a digit segment appends `int(seg)` (an uncaught
`ValueError` when `int` rejects it); otherwise a segment containing
`-` is split and parsed as a range, `ValueError` being caught and the
segment dropped, and an inverted range is dropped; any other segment is
dropped. -/
def segStep (seg : String) : Except PyExc (List Int) :=
  if pyIsDigit seg then
    match pyInt? seg with
    | some n => .ok [n]
    | none => .error (.valueE ("invalid literal for int() with base 10: '" ++ seg ++ "'"))
  else if '-' ∈ seg.data then
    match splitC '-' seg.data with
    | [a, b] =>
      match pyInt? ⟨a⟩, pyInt? ⟨b⟩ with
      | some s1, some e1 => .ok (if s1 ≤ e1 then rangeList s1 e1 else [])
      | _, _ => .ok []
    | _ => .ok []
  else .ok []

/-- The string loop of `parse_page_selection`: strip each comma
segment, process it with `segStep`, concatenate the contributions. -/
def segsTokens : List String → Except PyExc (List Int)
  | [] => .ok []
  | seg :: rest =>
    match segStep (pyStrip seg) with
    | .error e => .error e
    | .ok t =>
      match segsTokens rest with
      | .error e => .error e
      | .ok r => .ok (t ++ r)

/-- One iteration of `parse_page_selection`'s list loop: an `int` atom
is kept, a digit-string atom is converted with `int()` (an uncaught
`ValueError` when `int` rejects it), anything else is dropped. -/
def atomStep : Atom → Except PyExc (List Int)
  | .int i => .ok [i]
  | .str s =>
    if pyIsDigit s then
      match pyInt? s with
      | some n => .ok [n]
      | none => .error (.valueE ("invalid literal for int() with base 10: '" ++ s ++ "'"))
    else .ok []
  | .other => .ok []

/-- The list loop of `parse_page_selection`. -/
def atomsTokens : List Atom → Except PyExc (List Int)
  | [] => .ok []
  | a :: rest =>
    match atomStep a with
    | .error e => .error e
    | .ok t =>
      match atomsTokens rest with
      | .error e => .error e
      | .ok r => .ok (t ++ r)

/-- `parse_page_selection(pages_param)` from `src/so_api.py`: a list
keeps its `int` and digit-string atoms in order (falling back to
`"ALL"` when none survive); a string equal to `"ALL"` case-insensitively
is the sentinel; otherwise the string is split on commas, each segment
parsed as a page or a range, and the collected pages are returned
sorted and deduplicated (`sorted(set(result))`), falling back to
`"ALL"` when no segment contributed; any other value is `"ALL"`. -/
def parse_page_selection (p : PagesParam) : Except PyExc PageSel :=
  match p with
  | .list atoms =>
    match atomsTokens atoms with
    | .error e => .error e
    | .ok r => .ok (if r.isEmpty then .all else .pages r)
  | .str s =>
    if pyUpper s = "ALL" then .ok .all
    else
      match segsTokens ((splitC ',' s.data).map (fun cs => (⟨cs⟩ : String))) with
      | .error e => .error e
      | .ok r => .ok (if r.isEmpty then .all else .pages (sortedDedup r))
  | .other => .ok .all

/-- A stripped string segment that yields a page token in the string
grammar: a digit segment (by `str.isdigit`), or a hyphen segment whose
two parts parse as integers with start not above end.  Inverted ranges
and malformed segments are invalid. -/
def segValid (seg : String) : Bool :=
  pyIsDigit seg ||
    (decide ('-' ∈ seg.data) &&
      match splitC '-' seg.data with
      | [a, b] =>
        match pyInt? ⟨a⟩, pyInt? ⟨b⟩ with
        | some s1, some e1 => decide (s1 ≤ e1)
        | _, _ => false
      | _ => false)

/-- A list atom that yields a page token: an integer, or a digit string. -/
def atomValid : Atom → Bool
  | .int _ => true
  | .str s => pyIsDigit s
  | .other => false

/-- A non-empty, all-ASCII-decimal-digit character list. -/
def asciiDigits (cs : List Char) : Bool := !cs.isEmpty && cs.all Char.isDigit

/-- The spec's reading of one well-formed segment: a single page made of
decimal digits, a range of two decimal-digit substrings around one
hyphen with start at most end, or a non-numeric segment (no digit
characters at all), which is dropped. -/
def segWF (seg : String) : Bool :=
  asciiDigits seg.data ||
    (match splitC '-' seg.data with
     | [a, b] => asciiDigits a && asciiDigits b &&
         decide ((digitsVal a : Int) ≤ (digitsVal b : Int))
     | _ => false) ||
    seg.data.all (fun c => !(pyIsDigitChar c))

/-- The spec's reading of one segment's contribution: its single page,
the pages of its inclusive range, or nothing. -/
def segPages (seg : String) : List Int :=
  if asciiDigits seg.data then [(digitsVal seg.data : Int)]
  else
    match splitC '-' seg.data with
    | [a, b] =>
      if asciiDigits a && asciiDigits b &&
          decide ((digitsVal a : Int) ≤ (digitsVal b : Int)) then
        rangeList (digitsVal a) (digitsVal b)
      else []
    | _ => []

/-- The spec's reading of a whole comma-separated page spec: the union,
in segment order, of every stripped segment's contribution. -/
def specPages (s : String) : List Int :=
  ((splitC ',' s.data).map (fun cs => segPages (pyStrip ⟨cs⟩))).flatten

/-- Number of positions at which `pat` occurs in `s` as a substring. -/
def countOccs (pat s : String) : Nat :=
  (s.data.tails.filter (fun t => pat.data.isPrefixOf t)).length

/-! The `read_file` endpoint.  The external collaborators (base64 codec,
`PdfReader`, `Image.open`/`verify`, the EasyOCR reader) are modelled by an
environment recording, for the one request at hand, whether each succeeds
and what it yields. -/

/-- The request body: base64 payload, declared extension, page selection. -/
structure FileData where
  data : String
  ext : String
  pages : PagesParam
deriving DecidableEq

/-- A parsed PDF as `PdfReader` exposes it: one `extract_text()` result
per page, `none` modelling Python `None`. -/
structure PdfDoc where
  pageTexts : List (Option String)
deriving DecidableEq

/-- Outcomes of the external collaborators for one request. -/
structure Env where
  b64ok : Bool
  b64msg : String
  pdf : Option PdfDoc
  imgValid : Bool
  ocr : List String
deriving DecidableEq

/-- A success body: `{"content": ...}` or
`{"content": ..., "total_pages": ...}`. -/
inductive Body
  | content (s : String)
  | contentTotal (s : String) (total : Nat)
deriving DecidableEq

/-- The HTTP outcome: a 200 JSON body, an `HTTPException` that reached
FastAPI with its status code and detail, or an exception no handler
caught (FastAPI's generic 500). -/
inductive Resp
  | ok (b : Body)
  | err (code : Nat) (detail : String)
  | unhandled (e : PyExc)
deriving DecidableEq

/-- The HTTP status code of a response. -/
def respStatus : Resp → Nat
  | .ok _ => 200
  | .err c _ => c
  | .unhandled _ => 500

/-- Observable outcome of one request: the response, the pages on which
`extract_text` was invoked (in invocation order), how many times the OCR
reader ran, whether a temporary file was staged, and whether it is still
on disk when the handler returns. -/
structure RunResult where
  resp : Resp
  extracted : List Int
  ocrCalls : Nat
  tmpCreated : Bool
  tmpExists : Bool
deriving DecidableEq

/-- `page.extract_text() or ""`: a `None` result becomes the empty string. -/
def pageText : Option String → String
  | none => ""
  | some t => t

/-- The f-string `f"--- Page {n} ---\n{page_text}\n\n"`. -/
def pageBlock (num : String) (text : String) : String :=
  "--- Page " ++ num ++ " ---\n" ++ text ++ "\n\n"

/-- The `"ALL"` loop of the PDF branch: every page in order, 1-based. -/
def pdfAllContent (doc : PdfDoc) : String :=
  String.join (doc.pageTexts.enum.map
    (fun ip => pageBlock (toString (ip.1 + 1)) (pageText ip.2)))

/-- The selected-pages loop of the PDF branch: one block per valid page
number, `pdf_reader.pages[page_num - 1]` being the 1-based lookup. -/
def pdfSelContent (doc : PdfDoc) (valid : List Int) : String :=
  String.join (valid.map
    (fun p => pageBlock (toString p) (pageText (doc.pageTexts.getD (p - 1).toNat none))))

def pdfErrPrefix : String := "An error occurred while processing the PDF: "

def imgErrPrefix : String := "An error occurred while processing the image: "

def corruptPdfDetail : String := "Failed to read the PDF file. It might be corrupted."

def invalidB64Detail : String := "Invalid base64 data."

def invalidImgDetail : String := "Invalid image file."

def imgOnePageMsg : String :=
  "Image files only have one page. Please use 'ALL' or '1' for page selection."

def invalidExtDetail : String :=
  "Invalid file extension. Supported extensions are '.pdf', '.png', '.jpg', '.jpeg'."

def noValidPagesMsg : String := "No valid pages selected."

/-- The `try` block of the PDF branch.  `base64.b64decode` runs inside the
outer `try` with no inner handler, so its `binascii.Error` is caught by the
blanket `except Exception` and re-raised as a 500; a `PdfReader` failure
raises `HTTPException(400, ...)` from the inner handler, which the same
blanket `except Exception` also catches (`HTTPException` subclasses
`Exception`) and replaces with a 500. -/
def pdfBody (sel : PageSel) (env : Env) : RunResult :=
  if !env.b64ok then
    { resp := .err 500 (pdfErrPrefix ++ strExc (.binasciiE env.b64msg)),
      extracted := [], ocrCalls := 0, tmpCreated := false, tmpExists := false }
  else
    match env.pdf with
    | none =>
      { resp := .err 500 (pdfErrPrefix ++ strExc (.httpE 400 corruptPdfDetail)),
        extracted := [], ocrCalls := 0, tmpCreated := true, tmpExists := true }
    | some doc =>
      match sel with
      | .all =>
        { resp := .ok (.content (pyStrip (pdfAllContent doc))),
          extracted := (List.range doc.pageTexts.length).map (fun k => Int.ofNat k + 1),
          ocrCalls := 0, tmpCreated := true, tmpExists := true }
      | .pages l =>
        let total := doc.pageTexts.length
        let valid := l.filter (fun p => decide (1 ≤ p ∧ p ≤ (total : Int)))
        if valid.isEmpty then
          { resp := .ok (.contentTotal noValidPagesMsg total),
            extracted := [], ocrCalls := 0, tmpCreated := true, tmpExists := true }
        else
          { resp := .ok (.content (pyStrip (pdfSelContent doc valid))),
            extracted := valid, ocrCalls := 0, tmpCreated := true, tmpExists := true }

/-- The decode/verify/OCR part of the image branch.  The inner
`HTTPException(400, ...)` raises for bad base64 and for an invalid image
are caught by the branch's blanket `except Exception` and replaced with a
500, exactly as in the PDF branch. -/
def imgProcess (env : Env) : RunResult :=
  if !env.b64ok then
    { resp := .err 500 (imgErrPrefix ++ strExc (.httpE 400 invalidB64Detail)),
      extracted := [], ocrCalls := 0, tmpCreated := false, tmpExists := false }
  else if !env.imgValid then
    { resp := .err 500 (imgErrPrefix ++ strExc (.httpE 400 invalidImgDetail)),
      extracted := [], ocrCalls := 0, tmpCreated := true, tmpExists := true }
  else
    { resp := .ok (.content (pyStrip (String.intercalate " " env.ocr))),
      extracted := [], ocrCalls := 1, tmpCreated := true, tmpExists := true }

/-- The `try` block of the image branch: the short-circuit
`if selected_pages != "ALL" and (isinstance(selected_pages, list) and 1 not
in selected_pages)` returns the one-page guidance message before any
decode work; otherwise the image is decoded, verified and OCR-ed. -/
def imgBody (sel : PageSel) (env : Env) : RunResult :=
  match sel with
  | .all => imgProcess env
  | .pages l =>
    if 1 ∈ l then imgProcess env
    else
      { resp := .ok (.content imgOnePageMsg),
        extracted := [], ocrCalls := 0, tmpCreated := false, tmpExists := false }

/-- The `finally` block of both branches:
`if temp_file_path and os.path.exists(temp_file_path): os.remove(...)`. -/
def runFinally (m : RunResult) : RunResult :=
  if m.tmpCreated && m.tmpExists then { m with tmpExists := false } else m

/-- `read_file(file_data)` from `src/so_api.py`.  The page selection is
parsed before any `try` block, so a `ValueError` it raises propagates out
of the endpoint unhandled; `'.pdf'` is matched case-sensitively while the
image extensions are matched on `ext.lower()`; anything else is a 400. -/
def read_file (fd : FileData) (env : Env) : RunResult :=
  match parse_page_selection fd.pages with
  | .error e =>
    { resp := .unhandled e, extracted := [], ocrCalls := 0,
      tmpCreated := false, tmpExists := false }
  | .ok sel =>
    if fd.ext = ".pdf" then
      runFinally (pdfBody sel env)
    else if pyLower fd.ext ∈ [".png", ".jpg", ".jpeg"] then
      runFinally (imgBody sel env)
    else
      { resp := .err 400 invalidExtDetail, extracted := [], ocrCalls := 0,
        tmpCreated := false, tmpExists := false }

/-! Helper lemmas about the embedded primitives. -/

theorem mem_insertSD {a n : Int} {l : List Int} : a ∈ insertSD n l ↔ a = n ∨ a ∈ l := by
  induction l with
  | nil => simp [insertSD]
  | cons m t ih =>
    by_cases h1 : n = m
    · subst h1
      simp only [insertSD, if_pos rfl]
      simp [List.mem_cons]
    · by_cases h2 : n < m
      · simp [insertSD, h1, h2]
      · simp only [insertSD, if_neg h1, if_neg h2]
        simp only [List.mem_cons, ih]
        tauto

theorem pairwise_insertSD {n : Int} {l : List Int} (h : l.Pairwise (· < ·)) :
    (insertSD n l).Pairwise (· < ·) := by
  induction l with
  | nil => simp [insertSD]
  | cons m t ih =>
    rw [List.pairwise_cons] at h
    obtain ⟨hm, ht⟩ := h
    by_cases h1 : n = m
    · subst h1
      simp only [insertSD, if_pos rfl]
      exact List.pairwise_cons.mpr ⟨hm, ht⟩
    · by_cases h2 : n < m
      · simp only [insertSD, if_neg h1, if_pos h2]
        rw [List.pairwise_cons]
        refine ⟨?_, List.pairwise_cons.mpr ⟨hm, ht⟩⟩
        intro b hb
        rcases List.mem_cons.mp hb with rfl | hb
        · exact h2
        · exact h2.trans (hm b hb)
      · have h3 : m < n := by omega
        simp only [insertSD, if_neg h1, if_neg h2]
        rw [List.pairwise_cons]
        refine ⟨?_, ih ht⟩
        intro b hb
        rcases mem_insertSD.mp hb with rfl | hb
        · exact h3
        · exact hm b hb

theorem sortedDedup_pairwise (l : List Int) : (sortedDedup l).Pairwise (· < ·) := by
  induction l with
  | nil => simp [sortedDedup]
  | cons a t ih => exact pairwise_insertSD ih

theorem mem_sortedDedup {a : Int} {l : List Int} : a ∈ sortedDedup l ↔ a ∈ l := by
  induction l with
  | nil => simp [sortedDedup]
  | cons b t ih =>
    show a ∈ insertSD b (sortedDedup t) ↔ _
    rw [mem_insertSD, ih]
    simp

theorem splitC_ne_nil (sep : Char) (cs : List Char) : splitC sep cs ≠ [] := by
  cases cs with
  | nil => simp [splitC]
  | cons x xs =>
    simp only [splitC]
    split
    · simp
    · split <;> simp

theorem splitC_cons_eq (sep x : Char) (xs g0 : List Char) (gs : List (List Char))
    (h : splitC sep xs = g0 :: gs) :
    splitC sep (x :: xs) = if x = sep then [] :: g0 :: gs else (x :: g0) :: gs := by
  simp only [splitC]
  rw [h]

theorem splitC_sep_not_mem (sep : Char) (cs : List Char) :
    ∀ g ∈ splitC sep cs, sep ∉ g := by
  induction cs with
  | nil =>
    intro g hg
    simp [splitC] at hg
    subst hg
    simp
  | cons x xs ih =>
    intro g hg
    cases h : splitC sep xs with
    | nil => exact absurd h (splitC_ne_nil sep xs)
    | cons g0 gs =>
      rw [splitC_cons_eq sep x xs g0 gs h] at hg
      by_cases hx : x = sep
      · rw [if_pos hx] at hg
        rcases List.mem_cons.mp hg with rfl | hg
        · simp
        · exact ih g (by rw [h]; exact hg)
      · rw [if_neg hx] at hg
        rcases List.mem_cons.mp hg with rfl | hg
        · intro hmem
          rcases List.mem_cons.mp hmem with h1 | h1
          · exact hx h1.symm
          · exact ih g0 (by rw [h]; exact List.mem_cons_self g0 gs) h1
        · exact ih g (by rw [h]; exact List.mem_cons_of_mem g0 hg)

theorem sep_mem_of_splitC_two (sep : Char) (cs : List Char) (g g' : List Char)
    (gs : List (List Char)) (h : splitC sep cs = g :: g' :: gs) : sep ∈ cs := by
  induction cs generalizing g g' gs with
  | nil => simp [splitC] at h
  | cons x xs ih =>
    cases h0 : splitC sep xs with
    | nil => exact absurd h0 (splitC_ne_nil sep xs)
    | cons g0 gs0 =>
      rw [splitC_cons_eq sep x xs g0 gs0 h0] at h
      by_cases hx : x = sep
      · exact hx ▸ List.mem_cons_self x xs
      · rw [if_neg hx] at h
        injection h with h1 h2
        exact List.mem_cons_of_mem x (ih g0 g' gs (by rw [h0, h2]))

theorem mem_of_mem_pyStrip {a : Char} {s : String} (h : a ∈ (pyStrip s).data) :
    a ∈ s.data := by
  simp only [pyStrip] at h
  rw [List.mem_reverse] at h
  have h2 := (List.dropWhile_sublist _).mem h
  rw [List.mem_reverse] at h2
  exact (List.dropWhile_sublist _).mem h2

theorem isDigit_of_isPySpace {c : Char} (h : isPySpace c = true) : c.isDigit = false := by
  simp only [isPySpace, Bool.or_eq_true, decide_eq_true_eq] at h
  rcases h with ((((rfl | rfl) | rfl) | rfl) | rfl) | rfl <;> decide

theorem isPySpace_of_isDigit {c : Char} (h : c.isDigit = true) : isPySpace c = false := by
  cases hsp : isPySpace c
  · rfl
  · rw [isDigit_of_isPySpace hsp] at h
    cases h

theorem dropWhile_eq_self_of_none {p : Char → Bool} {l : List Char}
    (h : ∀ c ∈ l, p c = false) : l.dropWhile p = l := by
  cases l with
  | nil => rfl
  | cons c t => simp [List.dropWhile_cons, h c (List.mem_cons_self c t)]

theorem pyStrip_eq_self {s : String} (h : ∀ c ∈ s.data, isPySpace c = false) :
    pyStrip s = s := by
  simp only [pyStrip]
  rw [dropWhile_eq_self_of_none h]
  rw [dropWhile_eq_self_of_none (fun c hc => h c (List.mem_reverse.mp hc))]
  rw [List.reverse_reverse]

theorem noDoubleUS_of_no_us {cs : List Char} (h : ∀ c ∈ cs, c ≠ '_') :
    noDoubleUS cs = true := by
  induction cs with
  | nil => rfl
  | cons a t ih =>
    cases t with
    | nil => rfl
    | cons b u =>
      simp only [noDoubleUS, Bool.and_eq_true, Bool.not_eq_true']
      refine ⟨?_, ih (fun c hc => h c (List.mem_cons_of_mem a hc))⟩
      simp only [Bool.and_eq_false_iff, beq_eq_false_iff_ne, ne_eq]
      exact Or.inl (h a (List.mem_cons_self a _))

theorem pyDigitsU_all_digits {cs : List Char} (hne : cs ≠ [])
    (h : ∀ c ∈ cs, c.isDigit = true) : pyDigitsU cs = some (digitsVal cs) := by
  have hus : ∀ c ∈ cs, c ≠ '_' := by
    intro c hc
    intro hceq
    subst hceq
    exact absurd (h _ hc) (by decide)
  have hhead : cs.head? ≠ some '_' := by
    cases cs with
    | nil => simp
    | cons c t =>
      simp only [List.head?, ne_eq, Option.some.injEq]
      exact hus c (List.mem_cons_self c t)
  have hlast : cs.getLast? ≠ some '_' := by
    rw [List.getLast?_eq_getLast cs hne]
    simp only [ne_eq, Option.some.injEq]
    exact hus _ (List.getLast_mem hne)
  unfold pyDigitsU
  rw [if_neg (by simpa using hne)]
  rw [if_neg (by simp [hhead, hlast])]
  rw [if_neg (by simp [noDoubleUS_of_no_us hus])]
  rw [if_pos (by
    rw [List.all_eq_true]
    intro c hc
    simp [h c hc])]
  congr 1
  congr 1
  rw [List.filter_eq_self]
  intro c hc
  simpa using hus c hc

theorem pyDigitsU_none_of_no_digit {cs : List Char}
    (h : ∀ c ∈ cs, c.isDigit = false) : pyDigitsU cs = none := by
  unfold pyDigitsU
  split_ifs with h1 h2 h3 h4
  · rfl
  · rfl
  · rfl
  · exfalso
    cases cs with
    | nil => simp at h1
    | cons c t =>
      rw [List.all_eq_true] at h4
      have hc := h4 c (List.mem_cons_self c t)
      rw [h c (List.mem_cons_self c t)] at hc
      simp only [Bool.false_or, beq_iff_eq] at hc
      subst hc
      simp at h2
  · rfl

theorem mem_of_head? {α : Type} {l : List α} {a : α} (h : l.head? = some a) : a ∈ l := by
  cases l with
  | nil => cases h
  | cons x t =>
    simp only [List.head?, Option.some.injEq] at h
    subst h
    exact List.mem_cons_self x t

theorem pyInt?_nonneg {s : String} {n : Int} (hnd : '-' ∉ s.data)
    (h : pyInt? s = some n) : 0 ≤ n := by
  unfold pyInt? at h
  split_ifs at h with h1 h2
  · obtain ⟨k, hk, hkn⟩ := Option.map_eq_some'.mp h
    subst hkn
    exact Int.ofNat_nonneg k
  · exact absurd (mem_of_mem_pyStrip (mem_of_head? h2)) hnd
  · obtain ⟨k, hk, hkn⟩ := Option.map_eq_some'.mp h
    subst hkn
    exact Int.ofNat_nonneg k

theorem pyInt?_digits {s : String} (hne : s.data ≠ [])
    (h : ∀ c ∈ s.data, c.isDigit = true) :
    pyInt? s = some (Int.ofNat (digitsVal s.data)) := by
  have hstrip : pyStrip s = s :=
    pyStrip_eq_self (fun c hc => isPySpace_of_isDigit (h c hc))
  unfold pyInt?
  rw [hstrip]
  rcases hd : s.data with _ | ⟨c, t⟩
  · exact absurd hd hne
  · rw [hd] at h
    have hc := h c (List.mem_cons_self c t)
    have hplus : c ≠ '+' := by
      intro e
      subst e
      exact absurd hc (by decide)
    have hminus : c ≠ '-' := by
      intro e
      subst e
      exact absurd hc (by decide)
    simp only [List.head?, Option.some.injEq]
    rw [if_neg hplus, if_neg hminus]
    rw [pyDigitsU_all_digits (by simp) h]
    rfl

theorem pyInt?_none_of_no_digit {s : String}
    (h : ∀ c ∈ s.data, c.isDigit = false) : pyInt? s = none := by
  have hs : ∀ c ∈ (pyStrip s).data, c.isDigit = false :=
    fun c hc => h c (mem_of_mem_pyStrip hc)
  have htl : ∀ c ∈ (pyStrip s).data.tail, c.isDigit = false :=
    fun c hc => hs c (List.mem_of_mem_tail hc)
  unfold pyInt?
  split_ifs with h1 h2
  · rw [pyDigitsU_none_of_no_digit htl]
    rfl
  · rw [pyDigitsU_none_of_no_digit htl]
    rfl
  · rw [pyDigitsU_none_of_no_digit hs]
    rfl

theorem rangeList_length (a b : Int) : (rangeList a b).length = (b + 1 - a).toNat := by
  rw [rangeList, List.length_map, List.length_range]

theorem rangeList_le {m a b : Int} (h : m ∈ rangeList a b) : a ≤ m := by
  rw [rangeList, List.mem_map] at h
  obtain ⟨k, hk, hkm⟩ := h
  rw [List.mem_range] at hk
  rw [Int.ofNat_eq_natCast] at hkm
  omega

theorem rangeList_ne_nil {a b : Int} (h : a ≤ b) : rangeList a b ≠ [] := by
  intro hnil
  have hlen := congrArg List.length hnil
  rw [rangeList_length] at hlen
  simp at hlen
  omega

theorem mem_of_mem_splitC (sep : Char) (cs : List Char) :
    ∀ g ∈ splitC sep cs, ∀ c ∈ g, c ∈ cs := by
  induction cs with
  | nil =>
    intro g hg c hc
    simp [splitC] at hg
    subst hg
    simp at hc
  | cons x xs ih =>
    intro g hg c hc
    cases h : splitC sep xs with
    | nil => exact absurd h (splitC_ne_nil sep xs)
    | cons g0 gs =>
      rw [splitC_cons_eq sep x xs g0 gs h] at hg
      by_cases hx : x = sep
      · rw [if_pos hx] at hg
        rcases List.mem_cons.mp hg with rfl | hg
        · simp at hc
        · exact List.mem_cons_of_mem x (ih g (by rw [h]; exact hg) c hc)
      · rw [if_neg hx] at hg
        rcases List.mem_cons.mp hg with rfl | hg
        · rcases List.mem_cons.mp hc with rfl | hc
          · exact List.mem_cons_self c xs
          · exact List.mem_cons_of_mem x
              (ih g0 (by rw [h]; exact List.mem_cons_self g0 gs) c hc)
        · exact List.mem_cons_of_mem x
            (ih g (by rw [h]; exact List.mem_cons_of_mem g0 hg) c hc)

theorem splitC_of_not_mem {sep : Char} {cs : List Char} (h : sep ∉ cs) :
    splitC sep cs = [cs] := by
  induction cs with
  | nil => rfl
  | cons x xs ih =>
    have hx : x ≠ sep := fun e => h (e ▸ List.mem_cons_self x xs)
    have hxs : sep ∉ xs := fun m => h (List.mem_cons_of_mem x m)
    rw [splitC_cons_eq sep x xs xs [] (ih hxs), if_neg hx]

theorem pyIsDigitChar_of_isDigit {c : Char} (h : c.isDigit = true) :
    pyIsDigitChar c = true := by
  simp [pyIsDigitChar, h]

theorem pyIsDigit_false_of_mem {s : String} {c : Char} (hc : c ∈ s.data)
    (h : pyIsDigitChar c = false) : pyIsDigit s = false := by
  have hall : s.data.all pyIsDigitChar = false := by
    cases hA : s.data.all pyIsDigitChar
    · rfl
    · rw [List.all_eq_true] at hA
      rw [hA c hc] at h
      cases h
  unfold pyIsDigit
  rw [hall, Bool.and_false]

theorem pyIsDigit_of_asciiDigits {s : String} (h : asciiDigits s.data = true) :
    pyIsDigit s = true := by
  unfold asciiDigits at h
  rw [Bool.and_eq_true] at h
  obtain ⟨h1, h2⟩ := h
  unfold pyIsDigit
  rw [h1, Bool.true_and, List.all_eq_true]
  rw [List.all_eq_true] at h2
  exact fun c hc => pyIsDigitChar_of_isDigit (h2 c hc)

theorem asciiDigits_false_of_mem {cs : List Char} {c : Char} (hc : c ∈ cs)
    (h : c.isDigit = false) : asciiDigits cs = false := by
  have hall : cs.all Char.isDigit = false := by
    cases hA : cs.all Char.isDigit
    · rfl
    · rw [List.all_eq_true] at hA
      rw [hA c hc] at h
      cases h
  unfold asciiDigits
  rw [hall, Bool.and_false]

theorem segStep_error_valid {seg : String} {e : PyExc} (h : segStep seg = .error e) :
    segValid seg = true := by
  unfold segStep at h
  split_ifs at h with h1 h2
  · unfold segValid
    rw [h1, Bool.true_or]
  · exfalso
    rcases hsp : splitC '-' seg.data with _ | ⟨a, _ | ⟨b, _ | ⟨c2, gs⟩⟩⟩ <;>
      simp only [hsp] at h <;>
      first
      | exact Except.noConfusion h
      | (cases hA : pyInt? ⟨a⟩ <;> cases hB : pyInt? ⟨b⟩ <;>
          simp only [hA, hB] at h <;> exact Except.noConfusion h)

theorem segStep_ok_nil_iff {seg : String} {t : List Int} (h : segStep seg = .ok t) :
    t = [] ↔ segValid seg = false := by
  unfold segStep at h
  unfold segValid
  split_ifs at h with h1 h2
  · rw [h1, Bool.true_or]
    cases hI : pyInt? seg <;> rw [hI] at h
    · exact Except.noConfusion h
    · injection h with h'
      subst h'
      simp
  · rw [Bool.not_eq_true] at h1
    rw [h1, Bool.false_or, decide_eq_true h2, Bool.true_and]
    rcases hsp : splitC '-' seg.data with _ | ⟨a, _ | ⟨b, _ | ⟨c2, gs⟩⟩⟩ <;>
      simp only [hsp] at h ⊢
    · injection h with h'
      subst h'
      simp
    · injection h with h'
      subst h'
      simp
    · cases hA : pyInt? ⟨a⟩ <;> cases hB : pyInt? ⟨b⟩ <;> simp only [hA, hB] at h ⊢
      · injection h with h'
        subst h'
        simp
      · injection h with h'
        subst h'
        simp
      · injection h with h'
        subst h'
        simp
      · rename_i s1 e1
        injection h with h'
        subst h'
        by_cases hle : s1 ≤ e1
        · rw [if_pos hle]
          exact iff_of_false (rangeList_ne_nil hle) (by simp [hle])
        · rw [if_neg hle]
          exact iff_of_true rfl (by simp [hle])
    · injection h with h'
      subst h'
      simp
  · rw [Bool.not_eq_true] at h1
    rw [h1, Bool.false_or, decide_eq_false h2, Bool.false_and]
    injection h with h'
    subst h'
    simp

theorem segStep_nonneg {seg : String} {t : List Int} (h : segStep seg = .ok t) :
    ∀ m ∈ t, 0 ≤ m := by
  unfold segStep at h
  split_ifs at h with h1 h2
  · cases hI : pyInt? seg <;> rw [hI] at h
    · exact Except.noConfusion h
    · rename_i n
      injection h with h'
      subst h'
      intro m hm
      have hm' : m = n := List.mem_singleton.mp hm
      subst hm'
      have hnd : '-' ∉ seg.data := by
        intro hmem
        unfold pyIsDigit at h1
        rw [Bool.and_eq_true, List.all_eq_true] at h1
        exact absurd (h1.2 '-' hmem) (by decide)
      exact pyInt?_nonneg hnd hI
  · rcases hsp : splitC '-' seg.data with _ | ⟨a, _ | ⟨b, _ | ⟨c2, gs⟩⟩⟩ <;>
      simp only [hsp] at h
    · injection h with h'
      subst h'
      intro m hm
      cases hm
    · injection h with h'
      subst h'
      intro m hm
      cases hm
    · cases hA : pyInt? ⟨a⟩ <;> cases hB : pyInt? ⟨b⟩ <;> simp only [hA, hB] at h
      · injection h with h'
        subst h'
        intro m hm
        cases hm
      · injection h with h'
        subst h'
        intro m hm
        cases hm
      · injection h with h'
        subst h'
        intro m hm
        cases hm
      · rename_i s1 e1
        injection h with h'
        subst h'
        intro m hm
        by_cases hle : s1 ≤ e1
        · rw [if_pos hle] at hm
          have hna : '-' ∉ a :=
            splitC_sep_not_mem '-' seg.data a (by rw [hsp]; exact List.mem_cons_self a _)
          have ha : 0 ≤ s1 := pyInt?_nonneg (s := ⟨a⟩) hna hA
          exact le_trans ha (rangeList_le hm)
        · rw [if_neg hle] at hm
          cases hm
    · injection h with h'
      subst h'
      intro m hm
      cases hm
  · injection h with h'
    subst h'
    intro m hm
    cases hm

theorem isDigit_of_not_pyIsDigitChar {c : Char} (h : pyIsDigitChar c = false) :
    c.isDigit = false := by
  cases hd : c.isDigit
  · rfl
  · rw [pyIsDigitChar_of_isDigit hd] at h
    cases h

theorem segsTokens_nonneg : ∀ (segs : List String) (r : List Int),
    segsTokens segs = .ok r → ∀ m ∈ r, 0 ≤ m := by
  intro segs
  induction segs with
  | nil =>
    intro r h
    injection h with h'
    subst h'
    intro m hm
    cases hm
  | cons seg rest ih =>
    intro r h
    unfold segsTokens at h
    cases hst : segStep (pyStrip seg) with
    | error e =>
      rw [hst] at h
      exact Except.noConfusion h
    | ok t =>
      rw [hst] at h
      cases hrt : segsTokens rest with
      | error e =>
        rw [hrt] at h
        exact Except.noConfusion h
      | ok r2 =>
        rw [hrt] at h
        injection h with h'
        subst h'
        intro m hm
        rcases List.mem_append.mp hm with hm | hm
        · exact segStep_nonneg hst m hm
        · exact ih r2 hrt m hm

theorem segsTokens_error_exists : ∀ (segs : List String) (e : PyExc),
    segsTokens segs = .error e → ∃ seg ∈ segs, segValid (pyStrip seg) = true := by
  intro segs
  induction segs with
  | nil =>
    intro e h
    exact Except.noConfusion h
  | cons seg rest ih =>
    intro e h
    unfold segsTokens at h
    cases hst : segStep (pyStrip seg) with
    | error e2 => exact ⟨seg, List.mem_cons_self seg rest, segStep_error_valid hst⟩
    | ok t =>
      rw [hst] at h
      cases hrt : segsTokens rest with
      | error e2 =>
        obtain ⟨s2, hs2, hv⟩ := ih e2 hrt
        exact ⟨s2, List.mem_cons_of_mem seg hs2, hv⟩
      | ok r2 =>
        rw [hrt] at h
        exact Except.noConfusion h

theorem segsTokens_ok_nil_iff : ∀ (segs : List String) (r : List Int),
    segsTokens segs = .ok r →
    (r = [] ↔ ∀ seg ∈ segs, segValid (pyStrip seg) = false) := by
  intro segs
  induction segs with
  | nil =>
    intro r h
    injection h with h'
    subst h'
    simp
  | cons seg rest ih =>
    intro r h
    unfold segsTokens at h
    cases hst : segStep (pyStrip seg) with
    | error e =>
      rw [hst] at h
      exact Except.noConfusion h
    | ok t =>
      rw [hst] at h
      cases hrt : segsTokens rest with
      | error e =>
        rw [hrt] at h
        exact Except.noConfusion h
      | ok r2 =>
        rw [hrt] at h
        injection h with h'
        subst h'
        rw [List.append_eq_nil]
        rw [segStep_ok_nil_iff hst, ih r2 hrt]
        constructor
        · rintro ⟨h1, h2⟩ s hs
          rcases List.mem_cons.mp hs with rfl | hs
          · exact h1
          · exact h2 s hs
        · intro hall
          exact ⟨hall seg (List.mem_cons_self seg rest),
            fun s hs => hall s (List.mem_cons_of_mem seg hs)⟩

theorem atomStep_error_valid {a : Atom} {e : PyExc} (h : atomStep a = .error e) :
    atomValid a = true := by
  cases a with
  | int i => exact Except.noConfusion h
  | str s =>
    simp only [atomStep] at h
    split_ifs at h with hd
    · simp [atomValid, hd]
  | other => exact Except.noConfusion h

theorem atomStep_ok_nil_iff {a : Atom} {t : List Int} (h : atomStep a = .ok t) :
    t = [] ↔ atomValid a = false := by
  cases a with
  | int i =>
    injection h with h'
    subst h'
    simp [atomValid]
  | str s =>
    simp only [atomStep] at h
    split_ifs at h with hd
    · cases hI : pyInt? s with
      | none =>
        rw [hI] at h
        exact Except.noConfusion h
      | some n =>
        rw [hI] at h
        injection h with h'
        subst h'
        exact iff_of_false (by simp) (by simp [atomValid, hd])
    · injection h with h'
      subst h'
      exact iff_of_true rfl (by simp only [atomValid]; simpa using hd)
  | other =>
    injection h with h'
    subst h'
    simp [atomValid]

theorem atomStep_ok_mem {a : Atom} {t : List Int} (h : atomStep a = .ok t) (m : Int) :
    m ∈ t ↔ (a = .int m ∨ ∃ s, a = .str s ∧ pyIsDigit s = true ∧ pyInt? s = some m) := by
  cases a with
  | int i =>
    injection h with h'
    subst h'
    constructor
    · intro hm
      have hm' : m = i := List.mem_singleton.mp hm
      subst hm'
      exact Or.inl rfl
    · intro hOr
      rcases hOr with hint | ⟨s', hs', _, _⟩
      · injection hint with hint
        subst hint
        exact List.mem_singleton.mpr rfl
      · exact Atom.noConfusion hs'
  | str s =>
    simp only [atomStep] at h
    split_ifs at h with hd
    · cases hI : pyInt? s with
      | none =>
        rw [hI] at h
        exact Except.noConfusion h
      | some n =>
        rw [hI] at h
        injection h with h'
        subst h'
        constructor
        · intro hm
          have hm' : m = n := List.mem_singleton.mp hm
          subst hm'
          exact Or.inr ⟨s, rfl, hd, hI⟩
        · intro hOr
          rcases hOr with hint | ⟨s', hs', hd', hI'⟩
          · exact Atom.noConfusion hint
          · injection hs' with hs'
            subst hs'
            rw [hI] at hI'
            injection hI' with hI'
            subst hI'
            exact List.mem_singleton.mpr rfl
    · injection h with h'
      subst h'
      constructor
      · intro hm
        cases hm
      · intro hOr
        rcases hOr with hint | ⟨s', hs', hd', hI'⟩
        · exact Atom.noConfusion hint
        · injection hs' with hs'
          subst hs'
          exact absurd hd' hd
  | other =>
    injection h with h'
    subst h'
    constructor
    · intro hm
      cases hm
    · intro hOr
      rcases hOr with hint | ⟨s', hs', _, _⟩
      · exact Atom.noConfusion hint
      · exact Atom.noConfusion hs'

theorem atomsTokens_error_exists : ∀ (atoms : List Atom) (e : PyExc),
    atomsTokens atoms = .error e → ∃ a ∈ atoms, atomValid a = true := by
  intro atoms
  induction atoms with
  | nil =>
    intro e h
    exact Except.noConfusion h
  | cons a rest ih =>
    intro e h
    unfold atomsTokens at h
    cases hst : atomStep a with
    | error e2 => exact ⟨a, List.mem_cons_self a rest, atomStep_error_valid hst⟩
    | ok t =>
      rw [hst] at h
      cases hrt : atomsTokens rest with
      | error e2 =>
        obtain ⟨a2, ha2, hv⟩ := ih e2 hrt
        exact ⟨a2, List.mem_cons_of_mem a ha2, hv⟩
      | ok r2 =>
        rw [hrt] at h
        exact Except.noConfusion h

theorem atomsTokens_ok_nil_iff : ∀ (atoms : List Atom) (r : List Int),
    atomsTokens atoms = .ok r → (r = [] ↔ ∀ a ∈ atoms, atomValid a = false) := by
  intro atoms
  induction atoms with
  | nil =>
    intro r h
    injection h with h'
    subst h'
    simp
  | cons a rest ih =>
    intro r h
    unfold atomsTokens at h
    cases hst : atomStep a with
    | error e =>
      rw [hst] at h
      exact Except.noConfusion h
    | ok t =>
      rw [hst] at h
      cases hrt : atomsTokens rest with
      | error e =>
        rw [hrt] at h
        exact Except.noConfusion h
      | ok r2 =>
        rw [hrt] at h
        injection h with h'
        subst h'
        rw [List.append_eq_nil]
        rw [atomStep_ok_nil_iff hst, ih r2 hrt]
        constructor
        · rintro ⟨h1, h2⟩ a2 ha2
          rcases List.mem_cons.mp ha2 with rfl | ha2
          · exact h1
          · exact h2 a2 ha2
        · intro hall
          exact ⟨hall a (List.mem_cons_self a rest),
            fun a2 ha2 => hall a2 (List.mem_cons_of_mem a ha2)⟩

theorem atomsTokens_mem : ∀ (atoms : List Atom) (r : List Int),
    atomsTokens atoms = .ok r → ∀ m : Int,
    (m ∈ r ↔ (Atom.int m ∈ atoms ∨
      ∃ s, Atom.str s ∈ atoms ∧ pyIsDigit s = true ∧ pyInt? s = some m)) := by
  intro atoms
  induction atoms with
  | nil =>
    intro r h m
    injection h with h'
    subst h'
    simp
  | cons a rest ih =>
    intro r h m
    unfold atomsTokens at h
    cases hst : atomStep a with
    | error e =>
      rw [hst] at h
      exact Except.noConfusion h
    | ok t =>
      rw [hst] at h
      cases hrt : atomsTokens rest with
      | error e =>
        rw [hrt] at h
        exact Except.noConfusion h
      | ok r2 =>
        rw [hrt] at h
        injection h with h'
        subst h'
        have hmem := atomStep_ok_mem hst m
        constructor
        · intro hm
          rcases List.mem_append.mp hm with hm | hm
          · rcases hmem.mp hm with ha | ⟨s, ha, hd, hI⟩
            · rw [ha]
              exact Or.inl (List.mem_cons_self _ _)
            · rw [ha]
              exact Or.inr ⟨s, List.mem_cons_self _ _, hd, hI⟩
          · rcases (ih r2 hrt m).mp hm with hint | ⟨s, hs, hd, hI⟩
            · exact Or.inl (List.mem_cons_of_mem a hint)
            · exact Or.inr ⟨s, List.mem_cons_of_mem a hs, hd, hI⟩
        · intro hOr
          rcases hOr with hint | ⟨s, hs, hd, hI⟩
          · rcases List.mem_cons.mp hint with ha | hint
            · exact List.mem_append.mpr (Or.inl (hmem.mpr (Or.inl ha.symm)))
            · exact List.mem_append.mpr (Or.inr ((ih r2 hrt m).mpr (Or.inl hint)))
          · rcases List.mem_cons.mp hs with ha | hs
            · exact List.mem_append.mpr (Or.inl (hmem.mpr (Or.inr ⟨s, ha.symm, hd, hI⟩)))
            · exact List.mem_append.mpr
                (Or.inr ((ih r2 hrt m).mpr (Or.inr ⟨s, hs, hd, hI⟩)))

theorem asciiDigits_ne_nil {cs : List Char} (h : asciiDigits cs = true) : cs ≠ [] := by
  intro he
  subst he
  simp [asciiDigits] at h

theorem asciiDigits_digits {cs : List Char} (h : asciiDigits cs = true) :
    ∀ c ∈ cs, c.isDigit = true := by
  unfold asciiDigits at h
  rw [Bool.and_eq_true, List.all_eq_true] at h
  exact fun c hc => h.2 c hc

theorem pyIsDigit_false_of_all_nondigit {s : String}
    (h : ∀ c ∈ s.data, pyIsDigitChar c = false) : pyIsDigit s = false := by
  cases hd : s.data with
  | nil =>
    unfold pyIsDigit
    rw [hd]
    rfl
  | cons c t =>
    exact pyIsDigit_false_of_mem (by rw [hd]; exact List.mem_cons_self c t)
      (h c (by rw [hd]; exact List.mem_cons_self c t))

theorem asciiDigits_false_of_all_nondigit {cs : List Char}
    (h : ∀ c ∈ cs, c.isDigit = false) : asciiDigits cs = false := by
  cases cs with
  | nil => rfl
  | cons c t =>
    exact asciiDigits_false_of_mem (List.mem_cons_self c t) (h c (List.mem_cons_self c t))

theorem segStep_of_segWF {seg : String} (h : segWF seg = true) :
    segStep seg = .ok (segPages seg) := by
  unfold segWF at h
  rw [Bool.or_eq_true, Bool.or_eq_true] at h
  rcases h with (hA | hB) | hC
  · have hne : seg.data ≠ [] := asciiDigits_ne_nil hA
    have hdig := asciiDigits_digits hA
    unfold segStep segPages
    rw [if_pos (pyIsDigit_of_asciiDigits hA), if_pos hA]
    rw [pyInt?_digits hne hdig]
    rfl
  · rcases hsp : splitC '-' seg.data with _ | ⟨a, _ | ⟨b, _ | ⟨c2, gs⟩⟩⟩ <;> rw [hsp] at hB
    · exact absurd hB (by simp)
    · exact absurd hB (by simp)
    · rw [Bool.and_eq_true, Bool.and_eq_true] at hB
      obtain ⟨⟨ha, hb⟩, hle⟩ := hB
      rw [decide_eq_true_eq] at hle
      have hmem : '-' ∈ seg.data := sep_mem_of_splitC_two '-' seg.data a b [] hsp
      have hdig : pyIsDigit seg = false := pyIsDigit_false_of_mem hmem (by decide)
      have hasc : asciiDigits seg.data = false := asciiDigits_false_of_mem hmem (by decide)
      have h1 : ¬(pyIsDigit seg = true) := by simp [hdig]
      have h2 : ¬(asciiDigits seg.data = true) := by simp [hasc]
      have hIa := pyInt?_digits (s := ⟨a⟩) (asciiDigits_ne_nil ha) (asciiDigits_digits ha)
      have hIb := pyInt?_digits (s := ⟨b⟩) (asciiDigits_ne_nil hb) (asciiDigits_digits hb)
      unfold segStep segPages
      rw [if_neg h1, if_pos hmem, if_neg h2]
      simp only [hsp]
      simp [hIa, hIb, ha, hb, hle]
    · exact absurd hB (by simp)
  · rw [List.all_eq_true] at hC
    have hnd : ∀ c ∈ seg.data, pyIsDigitChar c = false := by
      intro c hc
      simpa using hC c hc
    have hdigf : ∀ c ∈ seg.data, c.isDigit = false :=
      fun c hc => isDigit_of_not_pyIsDigitChar (hnd c hc)
    have hdig : pyIsDigit seg = false := pyIsDigit_false_of_all_nondigit hnd
    have hasc : asciiDigits seg.data = false := asciiDigits_false_of_all_nondigit hdigf
    have h1 : ¬(pyIsDigit seg = true) := by simp [hdig]
    have h2 : ¬(asciiDigits seg.data = true) := by simp [hasc]
    unfold segStep segPages
    rw [if_neg h1, if_neg h2]
    by_cases hm : '-' ∈ seg.data
    · rw [if_pos hm]
      rcases hsp : splitC '-' seg.data with _ | ⟨a, _ | ⟨b, _ | ⟨c2, gs⟩⟩⟩ <;>
        simp only [hsp]
      have hca : ∀ c ∈ a, c.isDigit = false := fun c hc =>
        hdigf c (mem_of_mem_splitC '-' seg.data a
          (by rw [hsp]; exact List.mem_cons_self a _) c hc)
      simp [pyInt?_none_of_no_digit (s := ⟨a⟩) hca,
        asciiDigits_false_of_all_nondigit hca]
    · rw [if_neg hm, splitC_of_not_mem hm]

theorem segsTokens_of_wf : ∀ (segs : List String),
    (∀ seg ∈ segs, segWF (pyStrip seg) = true) →
    segsTokens segs = .ok ((segs.map (fun seg => segPages (pyStrip seg))).flatten) := by
  intro segs
  induction segs with
  | nil =>
    intro h
    rfl
  | cons seg rest ih =>
    intro h
    unfold segsTokens
    rw [segStep_of_segWF (h seg (List.mem_cons_self seg rest))]
    rw [ih (fun s hs => h s (List.mem_cons_of_mem seg hs))]
    rfl

theorem parse_str_ok_pages {s : String} {l : List Int}
    (h : parse_page_selection (.str s) = .ok (.pages l)) :
    ∃ r, segsTokens ((splitC ',' s.data).map (fun cs => (⟨cs⟩ : String))) = .ok r ∧
      l = sortedDedup r := by
  simp only [parse_page_selection] at h
  by_cases hA : pyUpper s = "ALL"
  · rw [if_pos hA] at h
    injection h with h'
    exact PageSel.noConfusion h'
  · rw [if_neg hA] at h
    cases ht : segsTokens ((splitC ',' s.data).map (fun cs => (⟨cs⟩ : String))) with
    | error e =>
      rw [ht] at h
      exact Except.noConfusion h
    | ok r =>
      rw [ht] at h
      injection h with h'
      cases r with
      | nil => exact PageSel.noConfusion h'
      | cons x xs =>
        injection h' with h''
        exact ⟨x :: xs, rfl, h''.symm⟩

theorem parse_list_ok_pages {atoms : List Atom} {l : List Int}
    (h : parse_page_selection (.list atoms) = .ok (.pages l)) :
    atomsTokens atoms = .ok l := by
  simp only [parse_page_selection] at h
  cases ht : atomsTokens atoms with
  | error e =>
    rw [ht] at h
    exact Except.noConfusion h
  | ok r =>
    rw [ht] at h
    injection h with h'
    cases r with
    | nil => exact PageSel.noConfusion h'
    | cons x xs =>
      injection h' with h''
      rw [h'']

theorem runFinally_resp (m : RunResult) : (runFinally m).resp = m.resp := by
  unfold runFinally
  split <;> rfl

theorem runFinally_extracted (m : RunResult) :
    (runFinally m).extracted = m.extracted := by
  unfold runFinally
  split <;> rfl

theorem runFinally_ocrCalls (m : RunResult) : (runFinally m).ocrCalls = m.ocrCalls := by
  unfold runFinally
  split <;> rfl

theorem runFinally_tmp {m : RunResult} (h : m.tmpExists = m.tmpCreated) :
    (runFinally m).tmpExists = false := by
  unfold runFinally
  cases hc : m.tmpCreated <;> simp [h, hc]

theorem pdfBody_tmp (sel : PageSel) (env : Env) :
    (pdfBody sel env).tmpExists = (pdfBody sel env).tmpCreated := by
  unfold pdfBody
  split
  · rfl
  · split
    · rfl
    · split
      · rfl
      · dsimp only
        split
        · rfl
        · rfl

theorem imgProcess_tmp (env : Env) :
    (imgProcess env).tmpExists = (imgProcess env).tmpCreated := by
  unfold imgProcess
  split
  · rfl
  · split
    · rfl
    · rfl

theorem imgBody_tmp (sel : PageSel) (env : Env) :
    (imgBody sel env).tmpExists = (imgBody sel env).tmpCreated := by
  unfold imgBody
  split
  · exact imgProcess_tmp env
  · split
    · exact imgProcess_tmp env
    · rfl

theorem read_file_pdf {fd : FileData} (env : Env) {sel : PageSel}
    (hp : parse_page_selection fd.pages = .ok sel) (hext : fd.ext = ".pdf") :
    read_file fd env = runFinally (pdfBody sel env) := by
  unfold read_file
  simp only [hp]
  rw [if_pos hext]

theorem read_file_img {fd : FileData} (env : Env) {sel : PageSel}
    (hp : parse_page_selection fd.pages = .ok sel) (hext : fd.ext ≠ ".pdf")
    (himg : pyLower fd.ext ∈ [".png", ".jpg", ".jpeg"]) :
    read_file fd env = runFinally (imgBody sel env) := by
  unfold read_file
  simp only [hp]
  rw [if_neg hext, if_pos himg]

theorem pdfBody_pages {env : Env} {doc : PdfDoc} (hb : env.b64ok = true)
    (hdoc : env.pdf = some doc) (l : List Int) :
    pdfBody (.pages l) env =
      (if (l.filter (fun p =>
          decide (1 ≤ p ∧ p ≤ (doc.pageTexts.length : Int)))).isEmpty then
        { resp := .ok (.contentTotal noValidPagesMsg doc.pageTexts.length),
          extracted := [], ocrCalls := 0, tmpCreated := true, tmpExists := true }
      else
        { resp := .ok (.content (pyStrip (pdfSelContent doc (l.filter (fun p =>
            decide (1 ≤ p ∧ p ≤ (doc.pageTexts.length : Int))))))),
          extracted := l.filter (fun p =>
            decide (1 ≤ p ∧ p ≤ (doc.pageTexts.length : Int))),
          ocrCalls := 0, tmpCreated := true, tmpExists := true }) := by
  unfold pdfBody
  rw [hb, hdoc]
  rfl

/-! Theorems settling the claims. -/

/-- C1: the handler evaluated at a PDF request whose payload decodes but
is not parsable as a PDF (`PdfReader` raises): the response status is
500, not the 400 the claim requires — the inner `HTTPException(400)` is
caught by the blanket `except Exception` and re-raised as a 500. -/
theorem read_file_corrupt_pdf_gives_500 :
    respStatus (read_file ⟨"JVBERi0x", ".pdf", .str "ALL"⟩
      ⟨true, "", none, true, []⟩).resp = 500 ∧
    (read_file ⟨"JVBERi0x", ".pdf", .str "ALL"⟩ ⟨true, "", none, true, []⟩).resp =
      .err 500 (pdfErrPrefix ++ strExc (.httpE 400 corruptPdfDetail)) ∧
    respStatus (read_file ⟨"JVBERi0x", ".pdf", .str "ALL"⟩
      ⟨true, "", none, true, []⟩).resp ≠ 400 := by
  refine ⟨by decide, by decide, by decide⟩

/-- C2 (amended): for every string input accepted without an exception,
`parse_page_selection` returns either the sentinel or a strictly
ascending — hence duplicate-free — list of non-negative integers; a
list input is the unchanged token list of its atoms: no sorting, no
deduplication, no positivity filtering. -/
theorem parse_page_selection_string_sorted_nonneg :
    (∀ (s : String) (l : List Int),
      parse_page_selection (.str s) = .ok (.pages l) →
      l.Pairwise (· < ·) ∧ ∀ m ∈ l, 0 ≤ m) ∧
    (∀ (atoms : List Atom) (l : List Int),
      parse_page_selection (.list atoms) = .ok (.pages l) →
      atomsTokens atoms = .ok l) := by
  constructor
  · intro s l h
    obtain ⟨r, ht, rfl⟩ := parse_str_ok_pages h
    refine ⟨sortedDedup_pairwise r, ?_⟩
    intro m hm
    exact segsTokens_nonneg _ r ht m (mem_sortedDedup.mp hm)
  · intro atoms l h
    exact parse_list_ok_pages h

/-- C2 counterexample: the list input `[3, 1]` comes back as `[3, 1]`,
which is not strictly ascending, and the string input `"0"` yields the
page `0`, which is not at least 1. -/
theorem parse_page_selection_not_sorted_positive :
    parse_page_selection (.list [.int 3, .int 1]) = .ok (.pages [3, 1]) ∧
    ¬ ([(3 : Int), 1].Pairwise (· < ·)) ∧
    parse_page_selection (.str "0") = .ok (.pages [0]) ∧
    ¬ (1 ≤ (0 : Int)) := by
  refine ⟨by decide, by decide, by decide, by decide⟩

/-- C2 witness: the amended claim at the string `"3,1,3"` (parsed to
`[1, 3]`) and at the list `[3, 1]`. -/
theorem parse_page_selection_string_sorted_nonneg_witness :
    ([(1 : Int), 3].Pairwise (· < ·) ∧ ∀ m ∈ [(1 : Int), 3], 0 ≤ m) ∧
    atomsTokens [.int 3, .int 1] = .ok [3, 1] :=
  ⟨parse_page_selection_string_sorted_nonneg.1 "3,1,3" [1, 3] (by decide),
   parse_page_selection_string_sorted_nonneg.2 [.int 3, .int 1] [3, 1] (by decide)⟩

/-- C3: the parser evaluated at the failing input `"²"`: CPython's
`"²".isdigit()` is `True` but `int("²")` raises `ValueError`, and that
call sits outside every handler, so `parse_page_selection` raises
instead of returning — against the claim that it never raises. -/
theorem parse_page_selection_raises_on_superscript :
    parse_page_selection (.str "²") =
      .error (.valueE "invalid literal for int() with base 10: '²'") ∧
    parse_page_selection (.list [.str "²"]) =
      .error (.valueE "invalid literal for int() with base 10: '²'") := by
  refine ⟨by decide, by decide⟩

/-- C4: for every well-formed comma-separated spec — each stripped
segment a decimal-digit run, a non-inverted decimal range, or a
non-numeric segment — that is not "ALL" and yields at least one page,
`parse_page_selection` returns exactly the sorted deduplicated union of
the single pages and the expanded inclusive ranges, non-numeric
segments dropped. -/
theorem parse_page_selection_wf_spec (s : String)
    (hA : pyUpper s ≠ "ALL")
    (hwf : ∀ cs ∈ splitC ',' s.data, segWF (pyStrip ⟨cs⟩) = true)
    (hne : specPages s ≠ []) :
    parse_page_selection (.str s) = .ok (.pages (sortedDedup (specPages s))) := by
  simp only [parse_page_selection]
  rw [if_neg hA]
  have ht := segsTokens_of_wf ((splitC ',' s.data).map (fun cs => (⟨cs⟩ : String)))
    (by
      intro seg hseg
      obtain ⟨cs, hcs, rfl⟩ := List.mem_map.mp hseg
      exact hwf cs hcs)
  have hmm : (((splitC ',' s.data).map (fun cs => (⟨cs⟩ : String))).map
      (fun seg => segPages (pyStrip seg))).flatten = specPages s := by
    unfold specPages
    rw [List.map_map]
    rfl
  rw [ht, hmm]
  rcases hflat : specPages s with _ | ⟨x, xs⟩
  · exact absurd hflat hne
  · rfl

/-- C4 witness: the five example specs evaluated, and the general
theorem applied at `"1-3,5,7-9"`. -/
theorem parse_page_selection_wf_spec_witness :
    parse_page_selection (.str "1") = .ok (.pages [1]) ∧
    parse_page_selection (.str "2-5") = .ok (.pages [2, 3, 4, 5]) ∧
    parse_page_selection (.str "2,5,7") = .ok (.pages [2, 5, 7]) ∧
    parse_page_selection (.str "1-3,5,7-9") = .ok (.pages [1, 2, 3, 5, 7, 8, 9]) ∧
    parse_page_selection (.str "abc,2,xyz") = .ok (.pages [2]) ∧
    parse_page_selection (.str "1-3,5,7-9") =
      .ok (.pages (sortedDedup (specPages "1-3,5,7-9"))) :=
  ⟨by decide, by decide, by decide, by decide, by decide,
   parse_page_selection_wf_spec "1-3,5,7-9" (by decide) (by decide) (by decide)⟩

/-- C5: `parse_page_selection` returns the sentinel exactly when the
input is neither a string nor a list, or is a case-insensitive "ALL"
string, or is a string all of whose comma segments are invalid
(inverted ranges included), or is a list all of whose atoms are
invalid. -/
theorem parse_page_selection_all_iff (p : PagesParam) :
    parse_page_selection p = .ok .all ↔
      (p = .other) ∨
      (∃ s, p = .str s ∧ pyUpper s = "ALL") ∨
      (∃ s, p = .str s ∧ pyUpper s ≠ "ALL" ∧
        ∀ cs ∈ splitC ',' s.data, segValid (pyStrip ⟨cs⟩) = false) ∨
      (∃ atoms, p = .list atoms ∧ ∀ a ∈ atoms, atomValid a = false) := by
  cases p with
  | other => simp [parse_page_selection]
  | str s =>
    constructor
    · intro h
      simp only [parse_page_selection] at h
      by_cases hA : pyUpper s = "ALL"
      · exact Or.inr (Or.inl ⟨s, rfl, hA⟩)
      · rw [if_neg hA] at h
        cases ht : segsTokens ((splitC ',' s.data).map (fun cs => (⟨cs⟩ : String))) with
        | error e =>
          rw [ht] at h
          exact Except.noConfusion h
        | ok r =>
          rw [ht] at h
          injection h with h'
          cases r with
          | nil =>
            refine Or.inr (Or.inr (Or.inl ⟨s, rfl, hA, ?_⟩))
            have hiff := (segsTokens_ok_nil_iff _ [] ht).mp rfl
            intro cs hcs
            exact hiff ⟨cs⟩ (List.mem_map_of_mem _ hcs)
          | cons x xs => exact PageSel.noConfusion h'
    · intro hOr
      rcases hOr with h | ⟨s', hs', hA⟩ | ⟨s', hs', hA, hinv⟩ | ⟨atoms, hatoms, _⟩
      · exact PagesParam.noConfusion h
      · injection hs' with hs'
        subst hs'
        simp only [parse_page_selection]
        rw [if_pos hA]
      · injection hs' with hs'
        subst hs'
        simp only [parse_page_selection]
        rw [if_neg hA]
        cases ht : segsTokens ((splitC ',' s.data).map (fun cs => (⟨cs⟩ : String))) with
        | error e =>
          obtain ⟨seg, hseg, hv⟩ := segsTokens_error_exists _ e ht
          obtain ⟨cs, hcs, rfl⟩ := List.mem_map.mp hseg
          exact absurd hv (by simp [hinv cs hcs])
        | ok r =>
          have hr : r = [] := by
            rw [segsTokens_ok_nil_iff _ r ht]
            intro seg hseg
            obtain ⟨cs, hcs, rfl⟩ := List.mem_map.mp hseg
            exact hinv cs hcs
          subst hr
          rfl
      · exact PagesParam.noConfusion hatoms
  | list atoms =>
    constructor
    · intro h
      simp only [parse_page_selection] at h
      cases ht : atomsTokens atoms with
      | error e =>
        rw [ht] at h
        exact Except.noConfusion h
      | ok r =>
        rw [ht] at h
        injection h with h'
        cases r with
        | nil =>
          exact Or.inr (Or.inr (Or.inr ⟨atoms, rfl,
            (atomsTokens_ok_nil_iff atoms [] ht).mp rfl⟩))
        | cons x xs => exact PageSel.noConfusion h'
    · intro hOr
      rcases hOr with h | ⟨s', hs', _⟩ | ⟨s', hs', _, _⟩ | ⟨atoms2, hatoms, hinv⟩
      · exact PagesParam.noConfusion h
      · exact PagesParam.noConfusion hs'
      · exact PagesParam.noConfusion hs'
      · injection hatoms with hatoms
        subst hatoms
        simp only [parse_page_selection]
        cases ht : atomsTokens atoms with
        | error e =>
          obtain ⟨a, ha, hv⟩ := atomsTokens_error_exists atoms e ht
          exact absurd hv (by simp [hinv a ha])
        | ok r =>
          have hr : r = [] := (atomsTokens_ok_nil_iff atoms r ht).mpr hinv
          subst hr
          rfl

/-- C6: a PDF request with an explicit selection none of whose pages is
within `1..totalPages` answers the "No valid pages selected." body
together with the document's total page count, and the per-page text
extractor is never invoked. -/
theorem read_file_no_valid_pages (fd : FileData) (env : Env) (doc : PdfDoc) (l : List Int)
    (hext : fd.ext = ".pdf") (hb : env.b64ok = true) (hdoc : env.pdf = some doc)
    (hp : parse_page_selection fd.pages = .ok (.pages l))
    (hval : l.filter (fun p => decide (1 ≤ p ∧ p ≤ (doc.pageTexts.length : Int))) = []) :
    (read_file fd env).resp = .ok (.contentTotal noValidPagesMsg doc.pageTexts.length) ∧
    (read_file fd env).extracted = [] := by
  rw [read_file_pdf env hp hext, runFinally_resp, runFinally_extracted,
    pdfBody_pages hb hdoc l, hval]
  exact ⟨rfl, rfl⟩

/-- C6 witness: a 3-page document with the selection `"5"`. -/
theorem read_file_no_valid_pages_witness :
    (read_file ⟨"x", ".pdf", .str "5"⟩
      ⟨true, "", some ⟨[some "a", some "b", none]⟩, true, []⟩).resp =
      .ok (.contentTotal noValidPagesMsg 3) ∧
    (read_file ⟨"x", ".pdf", .str "5"⟩
      ⟨true, "", some ⟨[some "a", some "b", none]⟩, true, []⟩).extracted = [] :=
  read_file_no_valid_pages ⟨"x", ".pdf", .str "5"⟩
    ⟨true, "", some ⟨[some "a", some "b", none]⟩, true, []⟩
    ⟨[some "a", some "b", none]⟩ [5] rfl rfl rfl (by decide) (by decide)

/-- C7 (amended): for a PDF request with a non-empty valid selection the
content is the stripped concatenation, in selection order, of one
`--- Page n ---` block per valid selected entry, a `None` extractor
result becoming the empty string; the order is ascending whenever the
parsed selection is ascending (in particular for string specs). -/
theorem read_file_pdf_selected_content (fd : FileData) (env : Env) (doc : PdfDoc)
    (l : List Int)
    (hext : fd.ext = ".pdf") (hb : env.b64ok = true) (hdoc : env.pdf = some doc)
    (hp : parse_page_selection fd.pages = .ok (.pages l))
    (hval : l.filter (fun p => decide (1 ≤ p ∧ p ≤ (doc.pageTexts.length : Int))) ≠ []) :
    (read_file fd env).resp = .ok (.content (pyStrip (String.join
      ((l.filter (fun p => decide (1 ≤ p ∧ p ≤ (doc.pageTexts.length : Int)))).map
        (fun p => pageBlock (toString p)
          (pageText (doc.pageTexts.getD (p - 1).toNat none))))))) ∧
    (read_file fd env).extracted =
      l.filter (fun p => decide (1 ≤ p ∧ p ≤ (doc.pageTexts.length : Int))) ∧
    (l.Pairwise (· < ·) → ((read_file fd env).extracted).Pairwise (· < ·)) := by
  rw [read_file_pdf env hp hext, runFinally_resp, runFinally_extracted,
    pdfBody_pages hb hdoc l]
  have hie : (l.filter (fun p =>
      decide (1 ≤ p ∧ p ≤ (doc.pageTexts.length : Int)))).isEmpty = false := by
    cases hd : l.filter (fun p => decide (1 ≤ p ∧ p ≤ (doc.pageTexts.length : Int))) with
    | nil => exact absurd hd hval
    | cons x xs => rfl
  rw [if_neg (show ¬((l.filter (fun p =>
      decide (1 ≤ p ∧ p ≤ (doc.pageTexts.length : Int)))).isEmpty = true) by
    rw [hie]
    simp)]
  refine ⟨rfl, rfl, ?_⟩
  intro hsort
  exact hsort.filter _

/-- C7 counterexample: on a 3-page PDF with texts "a","b","c" and the
list selection `[3, 1]`, the content keeps selection order (page 3
before page 1) and differs from the ascending-order assembly the claim
prescribes. -/
theorem read_file_pdf_content_not_ascending :
    (read_file ⟨"x", ".pdf", .list [.int 3, .int 1]⟩
      ⟨true, "", some ⟨[some "a", some "b", some "c"]⟩, true, []⟩).resp =
      .ok (.content "--- Page 3 ---\nc\n\n--- Page 1 ---\na") ∧
    "--- Page 3 ---\nc\n\n--- Page 1 ---\na" ≠
      pyStrip (String.join ([(1 : Int), 3].map (fun p => pageBlock (toString p)
        (pageText ((⟨[some "a", some "b", some "c"]⟩ : PdfDoc).pageTexts.getD
          (p - 1).toNat none))))) := by
  refine ⟨by decide, by decide⟩

/-- C7 witness: a 3-page PDF with the selection `"2"`: exactly one
page-2 marker, none for pages 1 or 3. -/
theorem read_file_pdf_selected_content_witness :
    (read_file ⟨"x", ".pdf", .str "2"⟩
      ⟨true, "", some ⟨[some "alpha", some "beta", some "gamma"]⟩, true, []⟩).resp =
      .ok (.content (pyStrip (String.join
        (([(2 : Int)]).map (fun p => pageBlock (toString p)
          (pageText ((⟨[some "alpha", some "beta", some "gamma"]⟩ : PdfDoc).pageTexts.getD
            (p - 1).toNat none))))))) ∧
    countOccs "--- Page 2 ---" "--- Page 2 ---\nbeta" = 1 ∧
    countOccs "--- Page 1 ---" "--- Page 2 ---\nbeta" = 0 ∧
    countOccs "--- Page 3 ---" "--- Page 2 ---\nbeta" = 0 :=
  ⟨(read_file_pdf_selected_content ⟨"x", ".pdf", .str "2"⟩
      ⟨true, "", some ⟨[some "alpha", some "beta", some "gamma"]⟩, true, []⟩
      ⟨[some "alpha", some "beta", some "gamma"]⟩ [2] rfl rfl rfl
      (by decide) (by decide)).1,
   by decide, by decide, by decide⟩

/-- C8 (amended): an image request whose parsed selection is a list not
containing 1 answers the one-page guidance message without invoking
OCR; every other image request that passes base64 decoding and image
verification invokes OCR exactly once and joins the fragments with
single spaces. -/
theorem read_file_image_dispatch (fd : FileData) (env : Env) (sel : PageSel)
    (hext : pyLower fd.ext ∈ [".png", ".jpg", ".jpeg"])
    (hp : parse_page_selection fd.pages = .ok sel) :
    (∀ l, sel = .pages l → 1 ∉ l →
      (read_file fd env).resp = .ok (.content imgOnePageMsg) ∧
      (read_file fd env).ocrCalls = 0) ∧
    ((sel = .all ∨ ∃ l, sel = .pages l ∧ 1 ∈ l) →
      env.b64ok = true → env.imgValid = true →
      (read_file fd env).resp = .ok (.content (pyStrip (String.intercalate " " env.ocr))) ∧
      (read_file fd env).ocrCalls = 1) := by
  have hne : fd.ext ≠ ".pdf" := by
    intro he
    rw [he] at hext
    exact absurd hext (by decide)
  have hrf := read_file_img env hp hne hext
  constructor
  · intro l hsel h1
    subst hsel
    rw [hrf, runFinally_resp, runFinally_ocrCalls]
    simp only [imgBody]
    rw [if_neg h1]
    exact ⟨rfl, rfl⟩
  · intro hsel hb hv
    rw [hrf, runFinally_resp, runFinally_ocrCalls]
    have himg : imgBody sel env = imgProcess env := by
      rcases hsel with rfl | ⟨l, rfl, h1⟩
      · rfl
      · simp only [imgBody]
        rw [if_pos h1]
    rw [himg]
    simp [imgProcess, hb, hv]

/-- C8 counterexample: an image request with selection "ALL" but an
undecodable payload: the claim would have OCR invoked once, yet the
handler answers 500 and never invokes OCR. -/
theorem read_file_image_bad_base64_no_ocr :
    (read_file ⟨"notb64", ".png", .str "ALL"⟩ ⟨false, "bad", none, true, ["hi"]⟩).resp =
      .err 500 (imgErrPrefix ++ strExc (.httpE 400 invalidB64Detail)) ∧
    (read_file ⟨"notb64", ".png", .str "ALL"⟩ ⟨false, "bad", none, true, ["hi"]⟩).ocrCalls = 0 ∧
    (read_file ⟨"notb64", ".png", .str "ALL"⟩
      ⟨false, "bad", none, true, ["hi"]⟩).ocrCalls ≠ 1 := by
  refine ⟨by decide, by decide, by decide⟩

/-- C8 witness: the guidance path at pages "2", and the OCR path at
pages "ALL" with fragments "hello", "world". -/
theorem read_file_image_dispatch_witness :
    ((read_file ⟨"x", ".png", .str "2"⟩ ⟨true, "", none, true, ["hi"]⟩).resp =
        .ok (.content imgOnePageMsg) ∧
      (read_file ⟨"x", ".png", .str "2"⟩ ⟨true, "", none, true, ["hi"]⟩).ocrCalls = 0) ∧
    ((read_file ⟨"x", ".jpg", .str "ALL"⟩
        ⟨true, "", none, true, ["hello", "world"]⟩).resp =
        .ok (.content (pyStrip (String.intercalate " " ["hello", "world"]))) ∧
      (read_file ⟨"x", ".jpg", .str "ALL"⟩
        ⟨true, "", none, true, ["hello", "world"]⟩).ocrCalls = 1) :=
  ⟨(read_file_image_dispatch ⟨"x", ".png", .str "2"⟩ ⟨true, "", none, true, ["hi"]⟩
      (.pages [2]) (by decide) (by decide)).1 [2] rfl (by decide),
   (read_file_image_dispatch ⟨"x", ".jpg", .str "ALL"⟩
      ⟨true, "", none, true, ["hello", "world"]⟩
      .all (by decide) (by decide)).2 (Or.inl rfl) rfl rfl⟩

/-- C9: after every request — success, validation failure, processing
failure, or an unhandled parse exception — no staged temporary file
remains on disk. -/
theorem read_file_no_temp_left (fd : FileData) (env : Env) :
    (read_file fd env).tmpExists = false := by
  unfold read_file
  cases hp : parse_page_selection fd.pages with
  | error e => rfl
  | ok sel =>
    split_ifs with h1 h2
    · exact runFinally_tmp (pdfBody_tmp sel env)
    · exact runFinally_tmp (imgBody_tmp sel env)
    · rfl

/-- C10: a hyphenated range such as "2-5" supplied as a LIST atom is
dropped (the selection falls back to the sentinel) instead of being
expanded, while the same text as a string spec expands; in general a
page m is in a list result exactly when some atom is the integer m or a
digit string whose `int()` value is m. -/
theorem parse_page_selection_list_atoms_only :
    parse_page_selection (.list [.str "2-5"]) = .ok .all ∧
    parse_page_selection (.str "2-5") = .ok (.pages [2, 3, 4, 5]) ∧
    ∀ (atoms : List Atom) (l : List Int),
      parse_page_selection (.list atoms) = .ok (.pages l) →
      ∀ m : Int, (m ∈ l ↔ (Atom.int m ∈ atoms ∨
        ∃ s, Atom.str s ∈ atoms ∧ pyIsDigit s = true ∧ pyInt? s = some m)) := by
  refine ⟨by decide, by decide, ?_⟩
  intro atoms l h m
  exact atomsTokens_mem atoms l (parse_list_ok_pages h) m

/-- C10 witness: the characterization applied at the list
`[7, "2-5", "3"]`, whose result is `[7, 3]`, at the page 3. -/
theorem parse_page_selection_list_atoms_only_witness :
    (3 : Int) ∈ [(7 : Int), 3] ↔
      (Atom.int 3 ∈ [Atom.int 7, Atom.str "2-5", Atom.str "3"] ∨
        ∃ s, Atom.str s ∈ [Atom.int 7, Atom.str "2-5", Atom.str "3"] ∧
          pyIsDigit s = true ∧ pyInt? s = some 3) :=
  parse_page_selection_list_atoms_only.2.2
    [.int 7, .str "2-5", .str "3"] [7, 3] (by decide) 3

end SoApi
